import Mathlib

/-
Verification of the distributed training-loop orchestrator of Pytorch-NCE
(src/main.py), shallowly embedded in Lean 4.

Modelling conventions:
  * tensors / rows are `List ℚ`; float arithmetic is modelled with exact
    rationals (the claims under study are about control flow, index
    addressing and algebraic identities, not rounding);
  * the sparse embedding gradient after `backward()` is a list of
    (row-index, gradient-vector) pairs; `torch.sparse` `coalesce()` sums
    duplicate indices and sorts, which `coalesce` below reproduces;
  * reported perplexities are `exp` of the modelled quantities; since
    `Real.exp` is strictly monotone and injective, claims about reported
    perplexities are settled on the `exp` arguments.
-/

namespace PytorchNCE

/-- componentwise sum of two rows (tensor `add_`). -/
def vecAdd (a b : List ℚ) : List ℚ := List.zipWith (· + ·) a b

/-- scalar multiple of a row. -/
def scaleVec (c : ℚ) (v : List ℚ) : List ℚ := v.map (fun x => c * x)

/-- insert one (index, value) pair into an index-sorted duplicate-free
accumulator, summing the values on an index collision.  Helper used to model
`torch` sparse-tensor `coalesce()`. -/
def insertCoalesce (i : ℕ) (v : List ℚ) : List (ℕ × List ℚ) → List (ℕ × List ℚ)
  | [] => [(i, v)]
  | (j, w) :: rest =>
    if i < j then (i, v) :: (j, w) :: rest
    else if i = j then (j, vecAdd w v) :: rest
    else (j, w) :: insertCoalesce i v rest

/-- model of `emb_grad = model.encoder.weight.grad.coalesce()` (main.py:126):
duplicate row indices are merged by summing their gradient vectors, and the
result is sorted by index with no duplicates. -/
def coalesce (ps : List (ℕ × List ℚ)) : List (ℕ × List ℚ) :=
  ps.foldl (fun acc p => insertCoalesce p.1 p.2 acc) []

/-- model of the sparse update, main.py lines 126-131:
`indices = emb_grad._indices()`; `w_d = weight_decay * weight.data[indices]`;
`emb_grad._values().add_(w_d)`;
`weight.data.index_add_(0, indices, -lr * emb_grad._values())`.
The decay term is read from the table before the in-place `index_add_`. -/
def apply_sparse_update (lr wd : ℚ) (table : List (List ℚ))
    (grad : List (ℕ × List ℚ)) : List (List ℚ) :=
  let cg := coalesce grad
  let decayed := cg.map (fun p => (p.1, vecAdd p.2 (scaleVec wd (table.getD p.1 []))))
  decayed.foldl (fun t p => t.set p.1 (vecAdd (t.getD p.1 []) (scaleVec (-lr) p.2))) table

theorem insertCoalesce_fst_subset (i : ℕ) (v : List ℚ) (l : List (ℕ × List ℚ)) :
    ∀ q ∈ insertCoalesce i v l, q.1 = i ∨ ∃ p ∈ l, q.1 = p.1 := by
  induction l with
  | nil =>
    intro q hq
    simp only [insertCoalesce, List.mem_singleton] at hq
    exact Or.inl (by rw [hq])
  | cons hd tl ih =>
    intro q hq
    obtain ⟨j, w⟩ := hd
    simp only [insertCoalesce] at hq
    by_cases h1 : i < j
    · rw [if_pos h1] at hq
      rcases List.mem_cons.mp hq with h | h
      · exact Or.inl (by rw [h])
      · rcases List.mem_cons.mp h with h' | h'
        · exact Or.inr ⟨(j, w), List.mem_cons_self _ _, by rw [h']⟩
        · exact Or.inr ⟨q, List.mem_cons_of_mem _ h', rfl⟩
    · rw [if_neg h1] at hq
      by_cases h2 : i = j
      · rw [if_pos h2] at hq
        rcases List.mem_cons.mp hq with h | h
        · exact Or.inl (by rw [h, h2])
        · exact Or.inr ⟨q, List.mem_cons_of_mem _ h, rfl⟩
      · rw [if_neg h2] at hq
        rcases List.mem_cons.mp hq with h | h
        · exact Or.inr ⟨(j, w), List.mem_cons_self _ _, by rw [h]⟩
        · rcases ih q h with h' | ⟨p, hp, h'⟩
          · exact Or.inl h'
          · exact Or.inr ⟨p, List.mem_cons_of_mem _ hp, h'⟩

theorem coalesce_foldl_fst_subset (ps : List (ℕ × List ℚ)) :
    ∀ (acc : List (ℕ × List ℚ)) (q : ℕ × List ℚ),
      q ∈ ps.foldl (fun acc p => insertCoalesce p.1 p.2 acc) acc →
      (∃ p ∈ ps, q.1 = p.1) ∨ (∃ p ∈ acc, q.1 = p.1) := by
  induction ps with
  | nil => exact fun acc q hq => Or.inr ⟨q, hq, rfl⟩
  | cons hd tl ih =>
    intro acc q hq
    simp only [List.foldl_cons] at hq
    rcases ih (insertCoalesce hd.1 hd.2 acc) q hq with ⟨p, hp, h⟩ | ⟨p, hp, h⟩
    · exact Or.inl ⟨p, List.mem_cons_of_mem _ hp, h⟩
    · rcases insertCoalesce_fst_subset hd.1 hd.2 acc p hp with h' | ⟨r, hr, h'⟩
      · exact Or.inl ⟨hd, List.mem_cons_self _ _, by rw [h, h']⟩
      · exact Or.inr ⟨r, hr, by rw [h, h']⟩

theorem coalesce_fst_subset (ps : List (ℕ × List ℚ)) (q : ℕ × List ℚ)
    (hq : q ∈ coalesce ps) : ∃ p ∈ ps, q.1 = p.1 := by
  rcases coalesce_foldl_fst_subset ps [] q hq with h | ⟨p, hp, _⟩
  · exact h
  · exact absurd hp (List.not_mem_nil p)

theorem foldl_set_getElem?_untouched (lr : ℚ) (j : ℕ) (ops : List (ℕ × List ℚ)) :
    ∀ (t : List (List ℚ)), (∀ p ∈ ops, p.1 ≠ j) →
      (ops.foldl (fun t p => t.set p.1 (vecAdd (t.getD p.1 []) (scaleVec (-lr) p.2))) t)[j]? =
        t[j]? := by
  induction ops with
  | nil => exact fun t _ => rfl
  | cons hd tl ih =>
    intro t h
    simp only [List.foldl_cons]
    rw [ih _ (fun q hq => h q (List.mem_cons_of_mem _ hq))]
    exact List.getElem?_set_ne (h hd (List.mem_cons_self _ _))

/-- C1: every row of the embedding table whose index is not among the touched
indices (those present in the sparse embedding gradient for the step) is
exactly the same after the sparse update as before it; in particular no weight
decay is applied to untouched rows. -/
theorem untouched_rows_unchanged (lr wd : ℚ) (table : List (List ℚ))
    (grad : List (ℕ × List ℚ)) (j : ℕ) (hj : ∀ p ∈ grad, p.1 ≠ j) :
    (apply_sparse_update lr wd table grad)[j]? = table[j]? := by
  unfold apply_sparse_update
  apply foldl_set_getElem?_untouched
  intro p hp
  rcases List.mem_map.mp hp with ⟨q, hq, hpq⟩
  rcases coalesce_fst_subset grad q hq with ⟨r, hr, h⟩
  rw [← hpq]
  simpa [h] using hj r hr

/-- concrete instance of `untouched_rows_unchanged`: a two-row table in which
only row 0 is touched leaves row 1 unchanged. -/
theorem untouched_rows_unchanged_witness :
    (apply_sparse_update (1/2) (1/100) [[1], [2]] [(0, [5])])[1]? =
      [[(1 : ℚ)], [2]][1]? :=
  untouched_rows_unchanged (1/2) (1/100) [[1], [2]] [(0, [5])] 1 (by decide)

/-- the pairs of a coalesced gradient are strictly sorted by row index. -/
def IndexSorted (l : List (ℕ × List ℚ)) : Prop :=
  l.Pairwise (fun p q => p.1 < q.1)

theorem indexSorted_insertCoalesce (i : ℕ) (v : List ℚ) (l : List (ℕ × List ℚ))
    (hl : IndexSorted l) : IndexSorted (insertCoalesce i v l) := by
  induction l with
  | nil => simp [insertCoalesce, IndexSorted]
  | cons hd tl ih =>
    obtain ⟨j, w⟩ := hd
    rcases List.pairwise_cons.mp hl with ⟨hjlt, htl⟩
    simp only [insertCoalesce]
    by_cases h1 : i < j
    · rw [if_pos h1]
      refine List.pairwise_cons.mpr ⟨?_, hl⟩
      intro p hp
      rcases List.mem_cons.mp hp with h | h
      · rw [h]; exact h1
      · exact lt_trans h1 (hjlt p h)
    · rw [if_neg h1]
      by_cases h2 : i = j
      · rw [if_pos h2]
        exact List.pairwise_cons.mpr ⟨hjlt, htl⟩
      · rw [if_neg h2]
        refine List.pairwise_cons.mpr ⟨?_, ih htl⟩
        intro p hp
        rcases insertCoalesce_fst_subset i v tl p hp with h | ⟨r, hr, h⟩
        · rw [h]; omega
        · rw [h]; exact hjlt r hr

theorem indexSorted_coalesce_foldl (ps : List (ℕ × List ℚ)) :
    ∀ acc : List (ℕ × List ℚ), IndexSorted acc →
      IndexSorted (ps.foldl (fun acc p => insertCoalesce p.1 p.2 acc) acc) := by
  induction ps with
  | nil => exact fun acc h => h
  | cons hd tl ih =>
    intro acc h
    simp only [List.foldl_cons]
    exact ih _ (indexSorted_insertCoalesce hd.1 hd.2 acc h)

theorem indexSorted_coalesce (ps : List (ℕ × List ℚ)) : IndexSorted (coalesce ps) :=
  indexSorted_coalesce_foldl ps [] List.Pairwise.nil

theorem insertCoalesce_of_forall_lt (i : ℕ) (v : List ℚ) (l : List (ℕ × List ℚ))
    (h : ∀ p ∈ l, p.1 < i) : insertCoalesce i v l = l ++ [(i, v)] := by
  induction l with
  | nil => rfl
  | cons hd tl ih =>
    obtain ⟨j, w⟩ := hd
    have hj : j < i := h (j, w) (List.mem_cons_self _ _)
    simp only [insertCoalesce]
    rw [if_neg (by omega), if_neg (by omega), ih (fun p hp => h p (List.mem_cons_of_mem _ hp))]
    rfl

theorem coalesce_foldl_of_sorted (l : List (ℕ × List ℚ)) :
    ∀ acc : List (ℕ × List ℚ), IndexSorted (acc ++ l) →
      l.foldl (fun acc p => insertCoalesce p.1 p.2 acc) acc = acc ++ l := by
  induction l with
  | nil => exact fun acc _ => (List.append_nil acc).symm
  | cons hd tl ih =>
    intro acc h
    have hlt : ∀ p ∈ acc, p.1 < hd.1 := by
      intro p hp
      exact (List.pairwise_append.mp h).2.2 p hp hd (List.mem_cons_self _ _)
    simp only [List.foldl_cons]
    rw [insertCoalesce_of_forall_lt hd.1 hd.2 acc hlt]
    have happ : (acc ++ [hd]) ++ tl = acc ++ hd :: tl := by
      rw [List.append_assoc]; rfl
    have h' : IndexSorted ((acc ++ [(hd.1, hd.2)]) ++ tl) := by
      rw [happ]; exact h
    rw [ih (acc ++ [(hd.1, hd.2)]) h']
    rw [List.append_assoc]; rfl

theorem coalesce_idem (ps : List (ℕ × List ℚ)) :
    coalesce (coalesce ps) = coalesce ps := by
  have h : IndexSorted ([] ++ coalesce ps) := indexSorted_coalesce ps
  simpa [coalesce] using coalesce_foldl_of_sorted (coalesce ps) [] h

/-- C2: the sparse update tolerates duplicate touched indices by summing their
gradients before applying weight decay once (merge-then-decay): updating with a
gradient equals updating with its coalesced (duplicates-merged) form.  In the
concrete scenario — vocabulary 1000, dimension 4, touched indices (3, 7, 3),
raw gradients [0.1]*4, [0.2]*4, [0.05]*4, weight_decay 0.01, lr 0.5, row 3
initially [1,1,1,1] — the updated row 3 is [0.92]*4. -/
theorem duplicate_indices_merge_then_decay :
    (∀ (lr wd : ℚ) (table : List (List ℚ)) (grad : List (ℕ × List ℚ)),
        apply_sparse_update lr wd table grad =
          apply_sparse_update lr wd table (coalesce grad)) ∧
    (apply_sparse_update (1/2) (1/100)
        (List.replicate 1000 (List.replicate 4 1))
        [(3, [1/10, 1/10, 1/10, 1/10]), (7, [1/5, 1/5, 1/5, 1/5]),
         (3, [1/20, 1/20, 1/20, 1/20])])[3]? =
      some [92/100, 92/100, 92/100, 92/100] := by
  constructor
  · intro lr wd table grad
    unfold apply_sparse_update
    rw [coalesce_idem]
  · have hc : coalesce [(3, [(1:ℚ)/10, 1/10, 1/10, 1/10]), (7, [1/5, 1/5, 1/5, 1/5]),
        (3, [1/20, 1/20, 1/20, 1/20])] =
        [(3, [3/20, 3/20, 3/20, 3/20]), (7, [1/5, 1/5, 1/5, 1/5])] := by
      norm_num [coalesce, insertCoalesce, vecAdd]
    unfold apply_sparse_update
    rw [hc]
    simp only [List.map_cons, List.map_nil, List.foldl_cons, List.foldl_nil]
    rw [List.getElem?_set_ne (by norm_num : (7 : ℕ) ≠ 3)]
    rw [List.getElem?_set_self
      (by rw [List.length_replicate]; norm_num :
        3 < (List.replicate 1000 (List.replicate 4 (1 : ℚ))).length)]
    have hg : (List.replicate 1000 (List.replicate 4 (1 : ℚ))).getD 3 [] = [1, 1, 1, 1] := by
      rw [List.getD_eq_getElem?_getD, List.getElem?_replicate_of_lt (by norm_num),
        Option.getD_some]
      rfl
    rw [hg]
    simp only [vecAdd, scaleVec, List.zipWith, List.map]
    norm_num

/-- model of the dense-parameter synchronization (main.py:139-141): for one
dense tensor, `vals` lists the value held by each of the workers in the group;
`dist.all_reduce(param.data, SUM)` leaves every worker holding the sum, and
`param.data /= dist.get_world_size()` divides it by the group size in place. -/
def allReduceMean (vals : List ℚ) : List ℚ :=
  vals.map (fun _ => vals.sum / vals.length)

/-- C3: after the dense-parameter synchronization every worker holds the
arithmetic mean (sum over the group divided by the group size) of the tensor;
with two workers holding 10 and 20, both hold exactly 15 afterwards. -/
theorem dense_sync_yields_mean (vals : List ℚ) :
    allReduceMean vals = List.replicate vals.length (vals.sum / vals.length) ∧
    allReduceMean [10, 20] = [15, 15] := by
  refine ⟨List.map_const' vals _, ?_⟩
  norm_num [allReduceMean]

/-- mode flags mutated on the long-lived model object: `training` is the
train/eval switch (`model.train()` / `model.eval()`), `nce` is the
NCE-approximation switch on the criterion (`model.criterion.nce`). -/
structure ModeFlags where
  training : Bool
  nce : Bool
deriving DecidableEq, Repr

/-- flag mutations `evaluate` performs on entry (main.py:156-157):
`model.eval()` then `model.criterion.nce = False`. -/
def evaluateEntryModes (s : ModeFlags) : ModeFlags :=
  { s with training := false, nce := false }

/-- flag mutation `evaluate` performs after the loop, before returning
(main.py:171): `model.criterion.nce = True`, unconditionally. -/
def evaluateExitModes (s : ModeFlags) : ModeFlags :=
  { s with nce := true }

/-- net effect of a normal (non-raising) `evaluate` call on the mode flags. -/
def evaluateModes (s : ModeFlags) : ModeFlags :=
  evaluateExitModes (evaluateEntryModes s)

/-- C5 counterexample: a model entering `evaluate` in training mode with the
NCE flag off (the state `train` establishes whenever `args.nce` is false)
leaves `evaluate` with both flags different from the entry state, so the entry
modes are not restored on return. -/
theorem evaluate_modes_not_restored :
    evaluateModes ⟨true, false⟩ ≠ ⟨true, false⟩ := by decide

/-- C5 amended: `evaluate` does not restore the entry flags; on any entry
state it exits with training mode off and the NCE flag unconditionally true,
and if it terminates early (an exception inside the loop) the flags are left
as set on entry: training off and NCE off.  (Training only resumes unaffected
because `train` re-establishes both flags itself at the start of each epoch,
main.py:108-109.) -/
theorem evaluate_modes_after (s : ModeFlags) :
    evaluateModes s = ⟨false, true⟩ ∧ evaluateEntryModes s = ⟨false, false⟩ := by
  constructor <;> rfl

/-- one evaluation batch, abstracted to what lines 163-169 consume: the scalar
loss `loss.data[0]` and the token count `int(length.data.sum())`. -/
structure EvalBatch where
  loss : ℚ
  tokens : ℕ
deriving DecidableEq, Repr

/-- accumulation loop of `evaluate` (main.py:162-169): returns
(`eval_loss`, `total_length`) where `eval_loss` adds `loss * cur_length`
per batch and `total_length` adds `cur_length`. -/
def evaluateLoop (batches : List EvalBatch) : ℚ × ℕ :=
  batches.foldl (fun acc b => (acc.1 + b.loss * b.tokens, acc.2 + b.tokens)) (0, 0)

/-- error raised by `evaluate`'s final division when `total_length` is zero
(Python `ZeroDivisionError` from `eval_loss/total_length`). -/
inductive EvalError where
  | zeroDivision
deriving DecidableEq, Repr

/-- model of `evaluate` (main.py:154-173) up to the final `math.exp`: returns
the corpus mean loss `eval_loss / total_length`; the code returns `exp` of it.
With `total_length = 0` the Python division `0/0` raises `ZeroDivisionError`,
modelled as `Except.error`. -/
def evaluate (batches : List EvalBatch) : Except EvalError ℚ :=
  let r := evaluateLoop batches
  if r.2 = 0 then Except.error EvalError.zeroDivision
  else Except.ok (r.1 / r.2)

/-- C6: on the empty input stream (zero batches) `evaluate` raises a defined
error (Python `ZeroDivisionError` at `eval_loss/total_length`, since both
accumulators are still zero) rather than returning NaN or any perplexity. -/
theorem evaluate_empty_stream_raises :
    evaluate [] = Except.error EvalError.zeroDivision := rfl

/-- outcome of one `run_epoch` call (main.py:176-201): the checkpoint paths
written (in writing order), the learning rate handed to the next epoch, and
the recorded best validation perplexity. -/
structure EpochResult where
  writes : List String
  lr : ℚ
  best_val_ppl : Option ℚ
deriving DecidableEq, Repr

/-- the branch condition of main.py:193, `not best_val_ppl or val_ppl <
best_val_ppl`, with Python truthiness: `best_val_ppl` is falsy when it is
`None` and also when it is exactly `0.0`. -/
def selectImprove : Option ℚ → ℚ → Bool
  | none, _ => true
  | some b, v => b == 0 || decide (v < b)

/-- model of `run_epoch` (main.py:176-201) after the `train` call: `val_ppl`
is the value returned by `evaluate` on the validation stream, taken here as an
input.  The epoch checkpoint `save + '.epoch_' + epoch` is written first
(line 190); then, if the improvement branch is taken, the best checkpoint
`save` is written and `best_val_ppl` becomes `val_ppl`; otherwise `lr` is
divided by `args.lr_decay`.  With `args.prof` set the function returns before
any of this (line 180-181), modelled as `none`. -/
def run_epoch (save : String) (lr_decay : ℚ) (prof : Bool) (epoch : ℕ)
    (lr : ℚ) (best_val_ppl : Option ℚ) (val_ppl : ℚ) : Option EpochResult :=
  if prof then none
  else
    let epochPath := save ++ ".epoch_" ++ toString epoch
    if selectImprove best_val_ppl val_ppl then
      some ⟨[epochPath, save], lr, some val_ppl⟩
    else
      some ⟨[epochPath], lr / lr_decay, best_val_ppl⟩

/-- C4: in any reachable state the stored best validation perplexity is either
absent or positive (it is `exp` of a loss).  Under that assumption: with no
prior best, or with `val_ppl` strictly below the prior best `b`, the best
checkpoint is written, the best becomes `val_ppl` and the learning rate is
unchanged; with `b ≤ val_ppl` the best checkpoint is not written, the best is
unchanged and the next learning rate is `lr / lr_decay`. -/
theorem anneal_on_no_improvement (save : String) (lr_decay lr val_ppl b : ℚ)
    (epoch : ℕ) (hb : 0 < b) :
    run_epoch save lr_decay false epoch lr none val_ppl =
      some ⟨[save ++ ".epoch_" ++ toString epoch, save], lr, some val_ppl⟩ ∧
    (val_ppl < b →
      run_epoch save lr_decay false epoch lr (some b) val_ppl =
        some ⟨[save ++ ".epoch_" ++ toString epoch, save], lr, some val_ppl⟩) ∧
    (b ≤ val_ppl →
      run_epoch save lr_decay false epoch lr (some b) val_ppl =
        some ⟨[save ++ ".epoch_" ++ toString epoch], lr / lr_decay, some b⟩) := by
  refine ⟨rfl, fun h => ?_, fun h => ?_⟩
  · have himp : selectImprove (some b) val_ppl = true := by
      simp [selectImprove, h]
    simp [run_epoch, himp]
  · have himp : selectImprove (some b) val_ppl = false := by
      simp [selectImprove, not_lt.mpr h]
      exact ne_of_gt hb
    simp [run_epoch, himp]

/-- concrete instance of `anneal_on_no_improvement`: prior best 2, new
validation perplexity 3 (no improvement), learning rate 4 and decay factor 2
anneal the learning rate to 2 and keep best 2 and only the epoch checkpoint. -/
theorem anneal_on_no_improvement_witness :
    run_epoch "model" 2 false 1 4 (some 2) 3 =
      some ⟨["model" ++ ".epoch_" ++ toString 1], 4 / 2, some 2⟩ :=
  (anneal_on_no_improvement "model" 2 4 3 2 1 (by norm_num)).2.2 (by norm_num)

theorem save_ne_epoch_path (save : String) (epoch : ℕ) :
    save ≠ save ++ ".epoch_" ++ toString epoch := by
  intro h
  have hlen := congrArg String.length h
  rw [String.length_append, String.length_append] at hlen
  have h7 : (".epoch_" : String).length = 7 := rfl
  omega

/-- C7: for every completed (non-profiling) epoch, `run_epoch` writes the
versioned checkpoint `save + '.epoch_' + epoch` in both branches, and writes
the unversioned path `save` exactly when the improvement branch
(`selectImprove`) is taken. -/
theorem epoch_checkpoint_always_written (save : String) (lr_decay lr val_ppl : ℚ)
    (epoch : ℕ) (best_val_ppl : Option ℚ) :
    ∃ r, run_epoch save lr_decay false epoch lr best_val_ppl val_ppl = some r ∧
      (save ++ ".epoch_" ++ toString epoch) ∈ r.writes ∧
      (save ∈ r.writes ↔ selectImprove best_val_ppl val_ppl = true) := by
  by_cases h : selectImprove best_val_ppl val_ppl
  · refine ⟨⟨[save ++ ".epoch_" ++ toString epoch, save], lr, some val_ppl⟩, ?_, ?_, ?_⟩
    · simp [run_epoch, h]
    · exact List.mem_cons_self _ _
    · simp [h]
  · refine ⟨⟨[save ++ ".epoch_" ++ toString epoch], lr / lr_decay, best_val_ppl⟩, ?_, ?_, ?_⟩
    · simp [run_epoch, h]
    · exact List.mem_cons_self _ _
    · simp only [List.mem_singleton]
      constructor
      · intro hmem
        exact absurd hmem (save_ne_epoch_path save epoch)
      · intro htrue
        exact absurd htrue (by simpa using h)

/-- C10: the branch condition `not best_val_ppl or val_ppl < best_val_ppl`
tests the stored best for Python falsiness, so a recorded best of exactly 0.0
is treated like an absent best: the improvement branch is taken for every new
validation perplexity (including strictly worse ones), writing both the epoch
and the best checkpoint, keeping the learning rate, and recording the new
value as best. -/
theorem best_zero_treated_as_absent (save : String) (lr_decay lr val_ppl : ℚ)
    (epoch : ℕ) :
    selectImprove (some 0) val_ppl = true ∧
    run_epoch save lr_decay false epoch lr (some 0) val_ppl =
      run_epoch save lr_decay false epoch lr none val_ppl ∧
    run_epoch save lr_decay false epoch lr (some 0) val_ppl =
      some ⟨[save ++ ".epoch_" ++ toString epoch, save], lr, some val_ppl⟩ := by
  refine ⟨by simp [selectImprove], ?_, ?_⟩ <;> simp [run_epoch, selectImprove]

/-- outcome of one epoch inside main's `try` (main.py:218-219): either the
epoch completes, or a `KeyboardInterrupt` is raised during it. -/
inductive EpochOutcome where
  | ok
  | interrupt
deriving DecidableEq, Repr

/-- the `for epoch in range(...)` loop under `try` (main.py:217-221): epochs
run until the list is exhausted or a `KeyboardInterrupt` stops the loop at its
first occurrence.  Returns how many epochs completed and whether an interrupt
was raised (and hence caught by the `except KeyboardInterrupt` handler). -/
def trainLoopEpochs : List EpochOutcome → ℕ × Bool
  | [] => (0, false)
  | EpochOutcome.ok :: rest =>
      ((trainLoopEpochs rest).1 + 1, (trainLoopEpochs rest).2)
  | EpochOutcome.interrupt :: _ => (0, true)

/-- observable result of `main` (main.py:205-234): epochs completed, whether
the interrupt warning `Exiting from training early` was logged, and whether
the final test evaluation ran and logged `End of training | test ppl`. -/
structure MainResult where
  epochsCompleted : ℕ
  interruptWarningLogged : Bool
  finalTestEvalLogged : Bool
deriving DecidableEq, Repr

/-- control flow of `main` (main.py:205-234): in training mode the epoch loop
runs inside `try`, a `KeyboardInterrupt` is caught and logged as a warning,
and — profiling aside — control always falls through to the test-set
evaluation at line 230-233. -/
def mainFlow (isTrain prof : Bool) (outcomes : List EpochOutcome) : MainResult :=
  if isTrain then
    let r := trainLoopEpochs outcomes
    ⟨r.1, r.2, !prof⟩
  else
    ⟨0, false, !prof⟩

/-- C8: a user interrupt raised during the training loop is caught rather than
propagated: the warning is logged and control proceeds to the final test-set
evaluation, which reports the final perplexity. -/
theorem interrupt_caught_and_final_eval (outcomes : List EpochOutcome)
    (h : EpochOutcome.interrupt ∈ outcomes) :
    (mainFlow true false outcomes).interruptWarningLogged = true ∧
    (mainFlow true false outcomes).finalTestEvalLogged = true := by
  refine ⟨?_, rfl⟩
  simp only [mainFlow, if_pos]
  induction outcomes with
  | nil => exact absurd h (List.not_mem_nil _)
  | cons hd tl ih =>
    cases hd with
    | ok =>
      have htl : EpochOutcome.interrupt ∈ tl := by
        rcases List.mem_cons.mp h with h' | h'
        · exact absurd h' (by decide)
        · exact h'
      simpa [trainLoopEpochs] using ih htl
    | interrupt => rfl

/-- concrete instance of `interrupt_caught_and_final_eval`: an interrupt in
the second epoch is logged and the final evaluation still runs. -/
theorem interrupt_caught_and_final_eval_witness :
    (mainFlow true false [EpochOutcome.ok, EpochOutcome.interrupt]).interruptWarningLogged = true ∧
    (mainFlow true false [EpochOutcome.ok, EpochOutcome.interrupt]).finalTestEvalLogged = true :=
  interrupt_caught_and_final_eval [EpochOutcome.ok, EpochOutcome.interrupt] (by decide)

/-- the logging loop of `train` (main.py:110-152) restricted to the running
loss: `i` is `num_batch` (from `enumerate`, starting at 0), `acc` is
`total_loss`.  Each batch adds its loss to `acc`; when
`num_batch % log_interval == 0 and num_batch > 0` the value
`cur_loss = total_loss / log_interval` is reported (its `exp` is the logged
training perplexity) and `total_loss` is reset to 0. -/
def trainLoopGo (L : ℕ) : ℕ → ℚ → List ℚ → List ℚ
  | _, _, [] => []
  | i, acc, loss :: rest =>
    if i % L = 0 ∧ 0 < i then
      ((acc + loss) / L) :: trainLoopGo L (i + 1) 0 rest
    else
      trainLoopGo L (i + 1) (acc + loss) rest

/-- the sequence of `cur_loss` values reported by one `train` call over the
given per-batch losses, with `log_interval = L`. -/
def train_reports (L : ℕ) (losses : List ℚ) : List ℚ :=
  trainLoopGo L 0 0 losses

/-- amended reporting schedule, stated from the code's behaviour: after the
first report, complete intervals of exactly `L` batches each report
`sum / L`, i.e. the interval mean. -/
def specChunks (L : ℕ) (ls : List ℚ) : List ℚ :=
  if L = 0 ∨ ls.length < L then []
  else ((ls.take L).sum / L) :: specChunks L (ls.drop L)
termination_by ls.length
decreasing_by simp only [List.length_drop]; omega

/-- amended reporting schedule for a whole epoch: the first report covers the
`L + 1` batches numbered 0 through `L` but still divides by `L`; every later
report covers exactly `L` batches and equals their mean. -/
def specReports (L : ℕ) (losses : List ℚ) : List ℚ :=
  if losses.length < L + 1 then []
  else ((losses.take (L + 1)).sum / L) :: specChunks L (losses.drop (L + 1))

theorem trainLoopGo_seg (L : ℕ) (hL : 0 < L) :
    ∀ (ls : List ℚ) (j : ℕ) (a : ℚ) (m : ℕ), j < L →
      trainLoopGo L (m * L + j + 1) a ls =
        (if ls.length < L - j then []
         else ((a + (ls.take (L - j)).sum) / L) ::
           trainLoopGo L (m * L + L + 1) 0 (ls.drop (L - j))) := by
  intro ls
  induction ls with
  | nil =>
    intro j a m hj
    rw [if_pos]
    · rfl
    · simpa using Nat.sub_pos_of_lt hj
  | cons x xs ih =>
    intro j a m hj
    by_cases hjL : j + 1 = L
    · have hmod : (m * L + j + 1) % L = 0 := by
        have : m * L + j + 1 = (m + 1) * L := by
          rw [← hjL]; ring
        rw [this, Nat.mul_mod_left]
      have hcond : (m * L + j + 1) % L = 0 ∧ 0 < m * L + j + 1 := ⟨hmod, by omega⟩
      rw [trainLoopGo, if_pos hcond]
      have hLj : L - j = 1 := by omega
      rw [if_neg (by simp [hLj])]
      have harg : m * L + j + 1 + 1 = m * L + L + 1 := by omega
      rw [harg, hLj]
      simp
    · have hjL' : j + 1 < L := by omega
      have hmod : (m * L + j + 1) % L = j + 1 := by
        have : m * L + j + 1 = j + 1 + m * L := by ring
        rw [this, Nat.add_mul_mod_self_right, Nat.mod_eq_of_lt hjL']
      have hcond : ¬((m * L + j + 1) % L = 0 ∧ 0 < m * L + j + 1) := by
        rw [hmod]; omega
      rw [trainLoopGo, if_neg hcond]
      have harg : m * L + j + 1 + 1 = m * L + (j + 1) + 1 := by omega
      rw [harg, ih (j + 1) (a + x) m hjL']
      have hLj : L - j = (L - (j + 1)) + 1 := by omega
      by_cases hlen : xs.length < L - (j + 1)
      · rw [if_pos hlen, if_pos (by simp [hLj]; omega)]
      · rw [if_neg hlen, if_neg (by simp [hLj]; omega)]
        rw [hLj, List.take_succ_cons, List.drop_succ_cons, List.sum_cons]
        congr 2
        ring

theorem trainLoopGo_chunks (L : ℕ) (hL : 0 < L) :
    ∀ (n : ℕ) (rest : List ℚ), rest.length ≤ n → ∀ m : ℕ,
      trainLoopGo L (m * L + L + 1) 0 rest = specChunks L rest := by
  intro n
  induction n with
  | zero =>
    intro rest hn m
    have hnil : rest = [] := List.eq_nil_of_length_eq_zero (Nat.le_zero.mp hn)
    subst hnil
    rw [specChunks, if_pos (Or.inr (by simpa using hL))]
    rfl
  | succ n ihn =>
    intro rest hn m
    have harg : m * L + L + 1 = (m + 1) * L + 0 + 1 := by ring
    rw [harg, trainLoopGo_seg L hL rest 0 0 (m + 1) hL, specChunks]
    by_cases hlen : rest.length < L
    · rw [if_pos (by simpa using hlen), if_pos (Or.inr hlen)]
    · rw [if_neg (by simpa using hlen), if_neg (by omega)]
      rw [Nat.sub_zero, zero_add]
      have htail : trainLoopGo L ((m + 1) * L + L + 1) 0 (rest.drop L) =
          specChunks L (rest.drop L) := by
        apply ihn
        rw [List.length_drop]
        omega
      rw [htail]

/-- C9 amended (code behaviour): with `log_interval = L > 0`, the reports of
one `train` call are exactly `specReports L losses` — the accumulator resets
to zero after each report, every interval after the first spans exactly `L`
batches so its report is `exp` of the interval's mean per-batch loss, but the
first interval spans the `L + 1` batches numbered 0 through `L` while still
dividing the accumulated loss by `L`, so the first report is not the interval
mean. -/
theorem train_reports_eq_spec (L : ℕ) (hL : 0 < L) (losses : List ℚ) :
    train_reports L losses = specReports L losses := by
  cases losses with
  | nil =>
    rw [train_reports, specReports, if_pos (by simp)]
    rfl
  | cons x xs =>
    rw [train_reports, trainLoopGo, if_neg (by omega)]
    have harg : (0 : ℕ) + 1 = 0 * L + 0 + 1 := by ring
    rw [show trainLoopGo L (0 + 1) (0 + x) xs = trainLoopGo L (0 * L + 0 + 1) (0 + x) xs from by
          rw [← harg],
        trainLoopGo_seg L hL xs 0 (0 + x) 0 hL, specReports]
    by_cases hlen : xs.length < L
    · rw [if_pos (by simpa using hlen), if_pos (by simp; omega)]
    · rw [if_neg (by simpa using hlen), if_neg (by simp; omega)]
      rw [Nat.sub_zero, List.take_succ_cons, List.drop_succ_cons, List.sum_cons]
      have htail : trainLoopGo L (0 * L + L + 1) 0 (xs.drop L) =
          specChunks L (xs.drop L) := trainLoopGo_chunks L hL (xs.drop L).length _ le_rfl 0
      rw [htail]
      congr 2
      ring

/-- concrete instance of `train_reports_eq_spec`: `log_interval = 2` over five
batches reports after batches 2 and 4. -/
theorem train_reports_eq_spec_witness :
    train_reports 2 [1, 1, 1, 2, 2] = specReports 2 [1, 1, 1, 2, 2] :=
  train_reports_eq_spec 2 (by norm_num) [1, 1, 1, 2, 2]

/-- C9 counterexample: with `log_interval = 1` and two batches of loss 1 each,
the first report is `2` — the accumulator holds batches 0 and 1 — while the
mean per-batch loss over the batches since the last reset is `1`; the reported
perplexity `exp 2` therefore differs from `exp` of the interval mean. -/
theorem train_report_not_interval_mean :
    train_reports 1 [1, 1] = [2] ∧
    ([(1 : ℚ), 1].sum / ([(1 : ℚ), 1].length : ℚ)) = 1 ∧
    Real.exp 2 ≠ Real.exp 1 := by
  refine ⟨?_, by norm_num, ?_⟩
  · rw [train_reports, trainLoopGo, if_neg (by omega), trainLoopGo, if_pos (by omega)]
    norm_num
    rfl
  · intro h
    rw [Real.exp_eq_exp] at h
    norm_num at h

end PytorchNCE
